import Mathlib

/-!
Verification of the compilation-database synchronization engine of `cdbgen`
(src/main.rs).

The development shallowly embeds the program:

* `Entry` mirrors the Rust struct `Entry` (fields `directory`, `file`,
  `arguments`) with its derived lexicographic ordering.
* Rust's `BTreeSet<Entry>` is modelled as a strictly sorted `List Entry`
  (`EntrySorted`); `BTreeSet::insert` is `insE`, collection is `entrySetOf`.
* `newEntries` is the merge computed in `process_compile_commands_json`
  lines 102-113: filter out entries keyed on the current directory and the
  file set, then insert one fresh entry per file.
* `serializePretty`/`parseJsonText` model `serde_json::to_string_pretty`
  and `serde_json::from_str` at the level of the JSON text format
  (pretty printing with two-space indentation, string escaping, and a
  recursive-descent parser over `List Char`).
* `synchronize` models the load/merge/conditional-write sequence of
  `process_compile_commands_json` on an explicit file-content state, and
  `createStep` models the create-new/already-exists handling.
* `isSourceFileUnix`/`isSourceFileWindows` and `runMain` model the
  source-file classification and database call in `main`.

All character-level operations are implemented directly over `List Char`
so that every definition kernel-evaluates on concrete inputs.
-/

/-- The record type, mirroring the Rust struct `Entry` in src/main.rs
(one record of `compile_commands.json`). -/
structure Entry where
  directory : String
  file : String
  arguments : List String
deriving DecidableEq, Repr

/-- Strict lexicographic comparison of char lists, as Rust orders `str`
(UTF-8 byte order coincides with code-point order). -/
def charsLtb : List Char → List Char → Bool
  | [], [] => false
  | [], _ :: _ => true
  | _ :: _, [] => false
  | a :: as, b :: bs => decide (a < b) || (decide (a = b) && charsLtb as bs)

/-- Rust `String` ordering. -/
def strLtb (s t : String) : Bool := charsLtb s.data t.data

/-- Rust `Vec<String>` ordering (lexicographic, shorter prefix first). -/
def argsLtb : List String → List String → Bool
  | [], [] => false
  | [], _ :: _ => true
  | _ :: _, [] => false
  | a :: as, b :: bs => strLtb a b || (decide (a = b) && argsLtb as bs)

/-- The derived `Ord` of the Rust struct `Entry`: lexicographic over
`(directory, file, arguments)` in field declaration order. -/
def Entry.ltb (x y : Entry) : Bool :=
  strLtb x.directory y.directory ||
    (decide (x.directory = y.directory) &&
      (strLtb x.file y.file ||
        (decide (x.file = y.file) && argsLtb x.arguments y.arguments)))

theorem charsLtb_irrefl : ∀ l : List Char, charsLtb l l = false := by
  intro l
  induction l with
  | nil => rfl
  | cons a as ih => simp [charsLtb, ih, lt_irrefl]

theorem charsLtb_asymm :
    ∀ l₁ l₂ : List Char, charsLtb l₁ l₂ = true → charsLtb l₂ l₁ = true → False := by
  intro l₁
  induction l₁ with
  | nil => intro l₂ h₁ h₂; cases l₂ <;> simp [charsLtb] at h₁ h₂
  | cons a as ih =>
    intro l₂ h₁ h₂
    cases l₂ with
    | nil => simp [charsLtb] at h₁
    | cons b bs =>
      simp only [charsLtb, Bool.or_eq_true, Bool.and_eq_true, decide_eq_true_eq] at h₁ h₂
      rcases h₁ with h₁ | ⟨hab, h₁⟩
      · rcases h₂ with h₂ | ⟨hab, h₂⟩
        · exact absurd h₁ (asymm h₂)
        · exact absurd (hab ▸ h₁) (lt_irrefl _)
      · rcases h₂ with h₂ | ⟨-, h₂⟩
        · exact absurd (hab ▸ h₂) (lt_irrefl _)
        · exact ih bs h₁ h₂

theorem charsLtb_total :
    ∀ l₁ l₂ : List Char, l₁ ≠ l₂ → charsLtb l₁ l₂ = true ∨ charsLtb l₂ l₁ = true := by
  intro l₁
  induction l₁ with
  | nil => intro l₂ h; cases l₂ with
    | nil => exact absurd rfl h
    | cons b bs => left; rfl
  | cons a as ih =>
    intro l₂ h
    cases l₂ with
    | nil => right; rfl
    | cons b bs =>
      by_cases hab : a = b
      · subst hab
        have hne : as ≠ bs := fun hh => h (by rw [hh])
        rcases ih bs hne with h' | h' <;>
          simp [charsLtb, h', lt_irrefl]
      · rcases lt_or_gt_of_ne hab with h' | h'
        · left; simp [charsLtb, h']
        · right; simp [charsLtb, h']

theorem charsLtb_trans :
    ∀ l₁ l₂ l₃ : List Char, charsLtb l₁ l₂ = true → charsLtb l₂ l₃ = true →
      charsLtb l₁ l₃ = true := by
  intro l₁
  induction l₁ with
  | nil =>
    intro l₂ l₃ h₁ h₂
    cases l₂ with
    | nil => simp [charsLtb] at h₁
    | cons b bs => cases l₃ with
      | nil => simp [charsLtb] at h₂
      | cons c cs => rfl
  | cons a as ih =>
    intro l₂ l₃ h₁ h₂
    cases l₂ with
    | nil => simp [charsLtb] at h₁
    | cons b bs =>
      cases l₃ with
      | nil => simp [charsLtb] at h₂
      | cons c cs =>
        simp only [charsLtb, Bool.or_eq_true, Bool.and_eq_true, decide_eq_true_eq] at h₁ h₂ ⊢
        rcases h₁ with h₁ | ⟨rfl, h₁⟩
        · rcases h₂ with h₂ | ⟨rfl, h₂⟩
          · exact Or.inl (lt_trans h₁ h₂)
          · exact Or.inl h₁
        · rcases h₂ with h₂ | ⟨rfl, h₂⟩
          · exact Or.inl h₂
          · exact Or.inr ⟨rfl, ih bs cs h₁ h₂⟩

theorem strLtb_irrefl (s : String) : strLtb s s = false := charsLtb_irrefl s.data

theorem strLtb_asymm {s t : String} (h₁ : strLtb s t = true) (h₂ : strLtb t s = true) :
    False := charsLtb_asymm s.data t.data h₁ h₂

theorem strLtb_total {s t : String} (h : s ≠ t) :
    strLtb s t = true ∨ strLtb t s = true := by
  refine charsLtb_total s.data t.data fun hd => h ?_
  cases s; cases t; exact congrArg String.mk (by simpa using hd)

theorem strLtb_trans {s t u : String} (h₁ : strLtb s t = true) (h₂ : strLtb t u = true) :
    strLtb s u = true := charsLtb_trans s.data t.data u.data h₁ h₂

theorem argsLtb_irrefl : ∀ l : List String, argsLtb l l = false := by
  intro l
  induction l with
  | nil => rfl
  | cons a as ih => simp [argsLtb, ih, strLtb_irrefl]

theorem argsLtb_asymm :
    ∀ l₁ l₂ : List String, argsLtb l₁ l₂ = true → argsLtb l₂ l₁ = true → False := by
  intro l₁
  induction l₁ with
  | nil => intro l₂ h₁ h₂; cases l₂ <;> simp [argsLtb] at h₁ h₂
  | cons a as ih =>
    intro l₂ h₁ h₂
    cases l₂ with
    | nil => simp [argsLtb] at h₁
    | cons b bs =>
      simp only [argsLtb, Bool.or_eq_true, Bool.and_eq_true, decide_eq_true_eq] at h₁ h₂
      rcases h₁ with h₁ | ⟨rfl, h₁⟩
      · rcases h₂ with h₂ | ⟨rfl, h₂⟩
        · exact strLtb_asymm h₁ h₂
        · exact absurd h₁ (by simp [strLtb_irrefl])
      · rcases h₂ with h₂ | ⟨-, h₂⟩
        · exact absurd h₂ (by simp [strLtb_irrefl])
        · exact ih bs h₁ h₂

theorem argsLtb_total :
    ∀ l₁ l₂ : List String, l₁ ≠ l₂ → argsLtb l₁ l₂ = true ∨ argsLtb l₂ l₁ = true := by
  intro l₁
  induction l₁ with
  | nil => intro l₂ h; cases l₂ with
    | nil => exact absurd rfl h
    | cons b bs => left; rfl
  | cons a as ih =>
    intro l₂ h
    cases l₂ with
    | nil => right; rfl
    | cons b bs =>
      by_cases hab : a = b
      · subst hab
        have hne : as ≠ bs := fun hh => h (by rw [hh])
        rcases ih bs hne with h' | h' <;>
          simp [argsLtb, h', strLtb_irrefl]
      · rcases strLtb_total hab with h' | h'
        · left; simp [argsLtb, h']
        · right; simp [argsLtb, h']

theorem argsLtb_trans :
    ∀ l₁ l₂ l₃ : List String, argsLtb l₁ l₂ = true → argsLtb l₂ l₃ = true →
      argsLtb l₁ l₃ = true := by
  intro l₁
  induction l₁ with
  | nil =>
    intro l₂ l₃ h₁ h₂
    cases l₂ with
    | nil => simp [argsLtb] at h₁
    | cons b bs => cases l₃ with
      | nil => simp [argsLtb] at h₂
      | cons c cs => rfl
  | cons a as ih =>
    intro l₂ l₃ h₁ h₂
    cases l₂ with
    | nil => simp [argsLtb] at h₁
    | cons b bs =>
      cases l₃ with
      | nil => simp [argsLtb] at h₂
      | cons c cs =>
        simp only [argsLtb, Bool.or_eq_true, Bool.and_eq_true, decide_eq_true_eq] at h₁ h₂ ⊢
        rcases h₁ with h₁ | ⟨rfl, h₁⟩
        · rcases h₂ with h₂ | ⟨rfl, h₂⟩
          · exact Or.inl (strLtb_trans h₁ h₂)
          · exact Or.inl h₁
        · rcases h₂ with h₂ | ⟨rfl, h₂⟩
          · exact Or.inl h₂
          · exact Or.inr ⟨rfl, ih bs cs h₁ h₂⟩

theorem entryLtb_irrefl (e : Entry) : Entry.ltb e e = false := by
  simp [Entry.ltb, strLtb_irrefl, argsLtb_irrefl]

theorem entryLtb_asymm {x y : Entry} (h₁ : Entry.ltb x y = true)
    (h₂ : Entry.ltb y x = true) : False := by
  simp only [Entry.ltb, Bool.or_eq_true, Bool.and_eq_true, decide_eq_true_eq] at h₁ h₂
  rcases h₁ with h₁ | ⟨hd₁, h₁ | ⟨hf₁, h₁⟩⟩ <;>
    rcases h₂ with h₂ | ⟨hd₂, h₂ | ⟨hf₂, h₂⟩⟩
  · exact strLtb_asymm h₁ h₂
  · exact absurd h₁ (by simp [hd₂, strLtb_irrefl])
  · exact absurd h₁ (by simp [hd₂, strLtb_irrefl])
  · exact absurd h₂ (by simp [hd₁, strLtb_irrefl])
  · exact strLtb_asymm h₁ h₂
  · exact absurd h₁ (by simp [hf₂, strLtb_irrefl])
  · exact absurd h₂ (by simp [hd₁, strLtb_irrefl])
  · exact absurd h₂ (by simp [hf₁, strLtb_irrefl])
  · exact argsLtb_asymm _ _ h₁ h₂

theorem entryLtb_total {x y : Entry} (h : x ≠ y) :
    Entry.ltb x y = true ∨ Entry.ltb y x = true := by
  obtain ⟨xd, xf, xa⟩ := x
  obtain ⟨yd, yf, ya⟩ := y
  by_cases hd : xd = yd
  · subst hd
    by_cases hf : xf = yf
    · subst hf
      have ha : xa ≠ ya := fun hh => h (by rw [hh])
      rcases argsLtb_total xa ya ha with h' | h' <;>
        simp [Entry.ltb, h', strLtb_irrefl]
    · rcases strLtb_total hf with h' | h' <;>
        simp [Entry.ltb, h', strLtb_irrefl]
  · rcases strLtb_total hd with h' | h'
    · left; simp [Entry.ltb, h']
    · right; simp [Entry.ltb, h']

theorem entryLtb_trans {x y z : Entry} (h₁ : Entry.ltb x y = true)
    (h₂ : Entry.ltb y z = true) : Entry.ltb x z = true := by
  simp only [Entry.ltb, Bool.or_eq_true, Bool.and_eq_true, decide_eq_true_eq] at h₁ h₂ ⊢
  rcases h₁ with h₁ | ⟨hd₁, h₁⟩
  · rcases h₂ with h₂ | ⟨hd₂, h₂⟩
    · exact Or.inl (strLtb_trans h₁ h₂)
    · exact Or.inl (hd₂ ▸ h₁)
  · rcases h₂ with h₂ | ⟨hd₂, h₂⟩
    · exact Or.inl (hd₁ ▸ h₂)
    · refine Or.inr ⟨hd₁.trans hd₂, ?_⟩
      rcases h₁ with h₁ | ⟨hf₁, h₁⟩
      · rcases h₂ with h₂ | ⟨hf₂, h₂⟩
        · exact Or.inl (strLtb_trans h₁ h₂)
        · exact Or.inl (hf₂ ▸ h₁)
      · rcases h₂ with h₂ | ⟨hf₂, h₂⟩
        · exact Or.inl (hf₁ ▸ h₂)
        · exact Or.inr ⟨hf₁.trans hf₂, argsLtb_trans _ _ _ h₁ h₂⟩

/-- The strict order as a proposition, for sortedness statements. -/
def Entry.Lt (x y : Entry) : Prop := Entry.ltb x y = true

instance : DecidableRel Entry.Lt := fun x y => inferInstanceAs (Decidable (_ = true))

/-- The `BTreeSet<Entry>` invariant: strictly sorted in the derived order. -/
def EntrySorted (l : List Entry) : Prop := l.Pairwise Entry.Lt

/-- `BTreeSet<Entry>::insert`: ordered insertion keeping an already present
equal element. -/
def insE (a : Entry) : List Entry → List Entry
  | [] => [a]
  | b :: bs => if Entry.ltb a b then a :: b :: bs
      else if a = b then b :: bs else b :: insE a bs

/-- Collecting an iterator into a `BTreeSet<Entry>` (insertion in sequence
order). -/
def entrySetOf (l : List Entry) : List Entry := l.foldl (fun acc x => insE x acc) []

theorem mem_insE {x a : Entry} : ∀ {l : List Entry}, x ∈ insE a l ↔ x = a ∨ x ∈ l := by
  intro l
  induction l with
  | nil => simp [insE]
  | cons b bs ih =>
    by_cases hlt : Entry.ltb a b
    · simp [insE, hlt]
    · by_cases heq : a = b
      · subst heq
        rw [insE, if_neg (by simpa using hlt), if_pos rfl]
        simp [List.mem_cons]
      · rw [insE, if_neg (by simpa using hlt), if_neg heq]
        simp [List.mem_cons, ih]
        tauto

theorem sorted_insE {a : Entry} : ∀ {l : List Entry}, EntrySorted l →
    EntrySorted (insE a l) := by
  intro l hl
  induction l with
  | nil => simp [insE, EntrySorted]
  | cons b bs ih =>
    rw [EntrySorted, List.pairwise_cons] at hl
    obtain ⟨hb, hbs⟩ := hl
    by_cases hlt : Entry.ltb a b
    · rw [EntrySorted, insE, if_pos hlt, List.pairwise_cons]
      refine ⟨?_, ?_⟩
      · intro x hx
        rcases List.mem_cons.mp hx with rfl | hx
        · exact hlt
        · exact entryLtb_trans hlt (hb x hx)
      · rw [List.pairwise_cons]; exact ⟨hb, hbs⟩
    · by_cases heq : a = b
      · rw [EntrySorted, insE, if_neg hlt, if_pos heq, List.pairwise_cons]
        exact ⟨hb, hbs⟩
      · rw [EntrySorted, insE, if_neg hlt, if_neg heq, List.pairwise_cons]
        refine ⟨?_, ih hbs⟩
        intro x hx
        rcases mem_insE.mp hx with rfl | hx
        · rcases entryLtb_total heq with h' | h'
          · exact absurd h' hlt
          · exact h'
        · exact hb x hx

theorem sorted_nodup : ∀ {l : List Entry}, EntrySorted l → l.Nodup := by
  intro l hl
  induction l with
  | nil => simp
  | cons b bs ih =>
    rw [EntrySorted, List.pairwise_cons] at hl
    rw [List.nodup_cons]
    refine ⟨fun hmem => ?_, ih hl.2⟩
    have := hl.1 b hmem
    simp [Entry.Lt, entryLtb_irrefl] at this

/-- Two strictly sorted lists with the same members are equal. -/
theorem sorted_ext : ∀ {l₁ l₂ : List Entry}, EntrySorted l₁ → EntrySorted l₂ →
    (∀ x, x ∈ l₁ ↔ x ∈ l₂) → l₁ = l₂ := by
  intro l₁
  induction l₁ with
  | nil =>
    intro l₂ _ _ hmem
    cases l₂ with
    | nil => rfl
    | cons b bs => exact absurd ((hmem b).mpr (List.mem_cons_self b bs)) (by simp)
  | cons a as ih =>
    intro l₂ h₁ h₂ hmem
    cases l₂ with
    | nil => exact absurd ((hmem a).mp (List.mem_cons_self a as)) (by simp)
    | cons b bs =>
      rw [EntrySorted, List.pairwise_cons] at h₁ h₂
      have hab : a = b := by
        by_contra hne
        have ha : a ∈ bs := by
          rcases List.mem_cons.mp ((hmem a).mp (List.mem_cons_self a as)) with h | h
          · exact absurd h hne
          · exact h
        have hb : b ∈ as := by
          rcases List.mem_cons.mp ((hmem b).mpr (List.mem_cons_self b bs)) with h | h
          · exact absurd h.symm hne
          · exact h
        exact entryLtb_asymm (h₂.1 a ha) (h₁.1 b hb)
      subst hab
      have htail : ∀ x, x ∈ as ↔ x ∈ bs := by
        intro x
        constructor
        · intro hx
          have hxa : x ≠ a := by
            intro h; subst h
            have := h₁.1 x hx
            simp [Entry.Lt, entryLtb_irrefl] at this
          rcases List.mem_cons.mp ((hmem x).mp (List.mem_cons_of_mem a hx)) with h | h
          · exact absurd h hxa
          · exact h
        · intro hx
          have hxa : x ≠ a := by
            intro h; subst h
            have := h₂.1 x hx
            simp [Entry.Lt, entryLtb_irrefl] at this
          rcases List.mem_cons.mp ((hmem x).mpr (List.mem_cons_of_mem a hx)) with h | h
          · exact absurd h hxa
          · exact h
      rw [ih h₁.2 h₂.2 htail]

/-- The merge computed in `process_compile_commands_json` (src/main.rs
lines 102-113): keep every loaded entry whose directory differs from the
current one or whose file is not among `files`, then insert one fresh
entry per file carrying the current directory and the full argument
vector. -/
def newEntries (old_entries : List Entry) (directory : String)
    (arguments : List String) (files : List String) : List Entry :=
  files.foldl (fun acc f => insE ⟨directory, f, arguments⟩ acc)
    (old_entries.filter fun e => !(e.directory == directory) || !(files.contains e.file))

theorem mem_foldl_insE {x : Entry} (dir : String) (args : List String) :
    ∀ (fs : List String) (base : List Entry),
      x ∈ fs.foldl (fun acc f => insE ⟨dir, f, args⟩ acc) base ↔
        x ∈ base ∨ ∃ f ∈ fs, x = ⟨dir, f, args⟩ := by
  intro fs
  induction fs with
  | nil => intro base; simp
  | cons g gs ih =>
    intro base
    rw [List.foldl_cons, ih, mem_insE]
    simp only [List.mem_cons]
    constructor
    · rintro (⟨rfl | hx⟩ | ⟨f, hf, rfl⟩)
      · exact Or.inr ⟨g, Or.inl rfl, rfl⟩
      · exact Or.inl hx
      · exact Or.inr ⟨f, Or.inr hf, rfl⟩
    · rintro (hx | ⟨f, rfl | hf, rfl⟩)
      · exact Or.inl (Or.inr hx)
      · exact Or.inl (Or.inl rfl)
      · exact Or.inr ⟨f, hf, rfl⟩

theorem sorted_foldl_insE (dir : String) (args : List String) :
    ∀ (fs : List String) (base : List Entry), EntrySorted base →
      EntrySorted (fs.foldl (fun acc f => insE ⟨dir, f, args⟩ acc) base) := by
  intro fs
  induction fs with
  | nil => intro base h; simpa using h
  | cons g gs ih =>
    intro base h
    rw [List.foldl_cons]
    exact ih _ (sorted_insE h)

theorem mem_newEntries {x : Entry} {old : List Entry} {dir : String}
    {args : List String} {files : List String} :
    x ∈ newEntries old dir args files ↔
      (x ∈ old ∧ (x.directory ≠ dir ∨ x.file ∉ files)) ∨
        (x.directory = dir ∧ x.file ∈ files ∧ x.arguments = args) := by
  rw [newEntries, mem_foldl_insE, List.mem_filter]
  have hp : (!(x.directory == dir) || !(files.contains x.file)) = true ↔
      x.directory ≠ dir ∨ x.file ∉ files := by
    simp [List.contains, List.elem_iff]
  rw [hp]
  constructor
  · rintro (h | ⟨f, hf, rfl⟩)
    · exact Or.inl h
    · exact Or.inr ⟨rfl, hf, rfl⟩
  · rintro (h | ⟨hd, hf, ha⟩)
    · exact Or.inl h
    · refine Or.inr ⟨x.file, hf, ?_⟩
      cases x
      simp_all

theorem sorted_newEntries {old : List Entry} (dir : String) (args : List String)
    (files : List String) (h : EntrySorted old) :
    EntrySorted (newEntries old dir args files) :=
  sorted_foldl_insE dir args files _ (List.Pairwise.filter _ h)

theorem newEntries_idem {old : List Entry} (dir : String) (args : List String)
    (files : List String) (h : EntrySorted old) :
    newEntries (newEntries old dir args files) dir args files =
      newEntries old dir args files := by
  refine sorted_ext (sorted_newEntries dir args files (sorted_newEntries dir args files h))
    (sorted_newEntries dir args files h) fun x => ?_
  rw [mem_newEntries, mem_newEntries]
  constructor
  · rintro (⟨h₁ | h₁, h₂⟩ | h₁)
    · exact Or.inl ⟨h₁.1, h₂⟩
    · rcases h₂ with h₂ | h₂
      · exact absurd h₁.1 h₂
      · exact absurd h₁.2.1 h₂
    · exact Or.inr h₁
  · rintro (⟨h₁, h₂⟩ | h₁)
    · exact Or.inl ⟨Or.inl ⟨h₁, h₂⟩, h₂⟩
    · exact Or.inr h₁

/-- Left curly bracket (0x7B). -/
def lbrace : Char := Char.ofNat 123

/-- Right curly bracket (0x7D). -/
def rbrace : Char := Char.ofNat 125

/-- The JSON document model of `serde_json` (number lexemes are kept raw;
only strings, arrays and objects occur in well-formed databases). -/
inductive Json where
  | str : String → Json
  | num : String → Json
  | bool : Bool → Json
  | null : Json
  | arr : List Json → Json
  | obj : List (String × Json) → Json

/-- Lowercase hexadecimal digit, as in serde_json's control escapes. -/
def hexDigit (n : Nat) : Char :=
  if n < 10 then Char.ofNat (48 + n) else Char.ofNat (87 + n)

/-- serde_json string escaping: quote, backslash, the short control
escapes, `\u00XX` for the remaining control characters, everything else
verbatim. -/
def escapeChar (c : Char) : List Char :=
  if c = '"' then ['\\', '"']
  else if c = '\\' then ['\\', '\\']
  else if c.toNat = 8 then ['\\', 'b']
  else if c.toNat = 9 then ['\\', 't']
  else if c.toNat = 10 then ['\\', 'n']
  else if c.toNat = 12 then ['\\', 'f']
  else if c.toNat = 13 then ['\\', 'r']
  else if c.toNat < 32 then
    ['\\', 'u', '0', '0', hexDigit (c.toNat / 16), hexDigit (c.toNat % 16)]
  else [c]

/-- Escape every character of a string body in turn. -/
def escapeList : List Char → List Char
  | [] => []
  | c :: cs => escapeChar c ++ escapeList cs

/-- A serialized JSON string literal. -/
def renderString (s : String) : List Char :=
  '"' :: (escapeList s.data ++ ['"'])

/-- Newline followed by the pretty printer's two-space indentation. -/
def nlIndent (d : Nat) : List Char := '\n' :: List.replicate (2 * d) ' '

mutual

/-- `serde_json::to_string_pretty` at nesting depth `d`. -/
def renderJson : Json → Nat → List Char
  | .str s, _ => renderString s
  | .num s, _ => s.data
  | .bool b, _ => if b then "true".data else "false".data
  | .null, _ => "null".data
  | .arr [], _ => ['[', ']']
  | .arr (x :: xs), d =>
      '[' :: (nlIndent (d + 1) ++ renderJson x (d + 1) ++ renderElems xs (d + 1) ++
        nlIndent d ++ [']'])
  | .obj [], _ => [lbrace, rbrace]
  | .obj (m :: ms), d =>
      lbrace :: (nlIndent (d + 1) ++ renderMember m (d + 1) ++ renderMembers ms (d + 1) ++
        nlIndent d ++ [rbrace])

/-- One pretty-printed object member, `"key": value`. -/
def renderMember : String × Json → Nat → List Char
  | (k, v), d => renderString k ++ (':' :: ' ' :: renderJson v d)

/-- Second and later array elements, each preceded by a comma and fresh
indentation. -/
def renderElems : List Json → Nat → List Char
  | [], _ => []
  | x :: xs, d => ',' :: (nlIndent d ++ renderJson x d ++ renderElems xs d)

/-- Second and later object members. -/
def renderMembers : List (String × Json) → Nat → List Char
  | [], _ => []
  | m :: ms, d => ',' :: (nlIndent d ++ renderMember m d ++ renderMembers ms d)

end

/-- The derived `Serialize` of `Entry`: a JSON object with the three
fields in declaration order. -/
def Entry.toJson (e : Entry) : Json :=
  .obj [("directory", .str e.directory), ("file", .str e.file),
    ("arguments", .arr (e.arguments.map .str))]

/-- Serialization of a `BTreeSet<Entry>`: a JSON array in sorted iteration
order. -/
def entriesToJson (l : List Entry) : Json := .arr (l.map Entry.toJson)

/-- `serde_json::to_string_pretty` applied to the entry set. -/
def serializePretty (l : List Entry) : String :=
  String.mk (renderJson (entriesToJson l) 0)

/-- JSON insignificant whitespace (space, newline, tab, carriage return). -/
def isJsonWs (c : Char) : Bool :=
  c = ' ' || c = '\n' || c = '\t' || c.toNat = 13

/-- Skip insignificant whitespace. -/
def skipWs : List Char → List Char
  | [] => []
  | c :: cs => if isJsonWs c then skipWs cs else c :: cs

/-- Value of one hexadecimal digit. -/
def hexVal (c : Char) : Option Nat :=
  if '0' ≤ c ∧ c ≤ '9' then some (c.toNat - 48)
  else if 'a' ≤ c ∧ c ≤ 'f' then some (c.toNat - 87)
  else if 'A' ≤ c ∧ c ≤ 'F' then some (c.toNat - 55)
  else none

/-- Characters a number lexeme may contain. -/
def isNumChar (c : Char) : Bool :=
  c.isDigit || c = '-' || c = '+' || c = '.' || c = 'e' || c = 'E'

/-- Lex one JSON number (kept as a raw lexeme). -/
def parseNumber (cs : List Char) : Option (Json × List Char) :=
  let lex := cs.takeWhile isNumChar
  if lex.isEmpty then none
  else some (.num (String.mk lex), cs.dropWhile isNumChar)

/-- Decode the low-surrogate half `\uXXXX` of a surrogate pair whose high
half decoded to `n`. -/
def parseLowSurrogate (n : Nat) : List Char → Option (Char × List Char)
  | e₂ :: u₂ :: g₁ :: g₂ :: g₃ :: g₄ :: cs =>
    if e₂ = '\\' ∧ u₂ = 'u' then
      match hexVal g₁, hexVal g₂, hexVal g₃, hexVal g₄ with
      | some a₂, some b₂, some c₂, some d₂ =>
        let m := ((a₂ * 16 + b₂) * 16 + c₂) * 16 + d₂
        if 0xDC00 ≤ m ∧ m ≤ 0xDFFF then
          some (Char.ofNat (0x10000 + (n - 0xD800) * 0x400 + (m - 0xDC00)), cs)
        else none
      | _, _, _, _ => none
    else none
  | _ => none

/-- Decode a `\uXXXX` escape (with a following low surrogate when the
first code unit is a high surrogate, as serde_json does). -/
def parseUEscape : List Char → Option (Char × List Char)
  | h₁ :: h₂ :: h₃ :: h₄ :: cs =>
    match hexVal h₁, hexVal h₂, hexVal h₃, hexVal h₄ with
    | some a, some b, some c₁, some d₁ =>
      let n := ((a * 16 + b) * 16 + c₁) * 16 + d₁
      if n < 0xD800 ∨ 0xDFFF < n then some (Char.ofNat n, cs)
      else if n ≤ 0xDBFF then parseLowSurrogate n cs
      else none
    | _, _, _, _ => none
  | _ => none

/-- Decode one escape sequence after the backslash. -/
def parseEscape : List Char → Option (Char × List Char)
  | [] => none
  | e :: cs =>
    if e = '"' then some ('"', cs)
    else if e = '\\' then some ('\\', cs)
    else if e = '/' then some ('/', cs)
    else if e = 'b' then some (Char.ofNat 8, cs)
    else if e = 'f' then some (Char.ofNat 12, cs)
    else if e = 'n' then some ('\n', cs)
    else if e = 'r' then some (Char.ofNat 13, cs)
    else if e = 't' then some ('\t', cs)
    else if e = 'u' then parseUEscape cs
    else none

/-- Parse a JSON string body after the opening quote: unescapes and
returns the decoded characters together with the input after the closing
quote.  Raw control characters are rejected.  The fuel only forces
structural recursion; every step consumes at least one character, so fuel
exceeding the input length never runs out. -/
def parseStringBody : Nat → List Char → Option (List Char × List Char)
  | 0, _ => none
  | _ + 1, [] => none
  | fuel + 1, c :: cs =>
    if c = '"' then some ([], cs)
    else if c = '\\' then
      match parseEscape cs with
      | some (ch, cs₂) => (parseStringBody fuel cs₂).map fun p => (ch :: p.1, p.2)
      | none => none
    else if c.toNat < 32 then none
    else (parseStringBody fuel cs).map fun p => (c :: p.1, p.2)

/-- Strip an expected literal word from the front of the input. -/
def stripLit : List Char → List Char → Option (List Char)
  | [], cs => some cs
  | w :: ws, c :: cs => if c = w then stripLit ws cs else none
  | _ :: _, [] => none

mutual

/-- Recursive-descent JSON value parser (fuel-indexed; the value must
begin at the head of the input).  One unit of fuel is spent per step, and
every two consecutive steps consume at least one character, so fuel
exceeding twice the input length never runs out. -/
def parseValue : Nat → List Char → Option (Json × List Char)
  | 0, _ => none
  | Nat.succ fuel, cs =>
    match cs with
    | [] => none
    | c :: cs₁ =>
      if c = '"' then
        (parseStringBody (cs₁.length + 1) cs₁).map fun p => (Json.str (String.mk p.1), p.2)
      else if c = '[' then parseArrayBody fuel (skipWs cs₁)
      else if c = lbrace then parseObjBody fuel (skipWs cs₁)
      else if c = 't' then
        match stripLit ['r', 'u', 'e'] cs₁ with
        | some r => some (Json.bool true, r)
        | none => none
      else if c = 'f' then
        match stripLit ['a', 'l', 's', 'e'] cs₁ with
        | some r => some (Json.bool false, r)
        | none => none
      else if c = 'n' then
        match stripLit ['u', 'l', 'l'] cs₁ with
        | some r => some (Json.null, r)
        | none => none
      else if c = '-' ∨ c.isDigit then parseNumber (c :: cs₁)
      else none

/-- Inside an array after the opening bracket and whitespace: the closing
bracket or the first element. -/
def parseArrayBody : Nat → List Char → Option (Json × List Char)
  | 0, _ => none
  | Nat.succ fuel, cs =>
    match cs with
    | [] => none
    | ch :: rest =>
      if ch = ']' then some (Json.arr [], rest)
      else
        match parseValue fuel (ch :: rest) with
        | some (j, r) => (parseElems fuel r).map fun p => (Json.arr (j :: p.1), p.2)
        | none => none

/-- Inside an object after the opening bracket and whitespace: the
closing bracket or the first member. -/
def parseObjBody : Nat → List Char → Option (Json × List Char)
  | 0, _ => none
  | Nat.succ fuel, cs =>
    match cs with
    | [] => none
    | ch :: rest =>
      if ch = rbrace then some (Json.obj [], rest)
      else
        match parseMember fuel (ch :: rest) with
        | some (kv, r) => (parseMembers fuel r).map fun p => (Json.obj (kv :: p.1), p.2)
        | none => none

/-- After one array element: skip whitespace, then a comma and a further
element, or the closing bracket. -/
def parseElems : Nat → List Char → Option (List Json × List Char)
  | 0, _ => none
  | Nat.succ fuel, cs => parseElemsTail fuel (skipWs cs)

/-- After one array element, whitespace already skipped. -/
def parseElemsTail : Nat → List Char → Option (List Json × List Char)
  | 0, _ => none
  | Nat.succ fuel, cs =>
    match cs with
    | [] => none
    | c :: r =>
      if c = ']' then some ([], r)
      else if c = ',' then
        match parseValue fuel (skipWs r) with
        | some (j, r₂) => (parseElems fuel r₂).map fun p => (j :: p.1, p.2)
        | none => none
      else none

/-- One object member: a key string, a colon, and a value. -/
def parseMember : Nat → List Char → Option ((String × Json) × List Char)
  | 0, _ => none
  | Nat.succ fuel, cs =>
    match cs with
    | [] => none
    | c :: cs₁ =>
      if c = '"' then
        match parseStringBody (cs₁.length + 1) cs₁ with
        | some (k, r) => parseMemberColon fuel (String.mk k) (skipWs r)
        | none => none
      else none

/-- The rest of one object member after the key: a colon and a value. -/
def parseMemberColon : Nat → String → List Char → Option ((String × Json) × List Char)
  | 0, _, _ => none
  | Nat.succ fuel, k, cs =>
    match cs with
    | [] => none
    | c :: r₂ =>
      if c = ':' then (parseValue fuel (skipWs r₂)).map fun v => ((k, v.1), v.2)
      else none

/-- After one object member: skip whitespace, then a comma and a further
member, or the closing bracket. -/
def parseMembers : Nat → List Char → Option (List (String × Json) × List Char)
  | 0, _ => none
  | Nat.succ fuel, cs => parseMembersTail fuel (skipWs cs)

/-- After one object member, whitespace already skipped. -/
def parseMembersTail : Nat → List Char → Option (List (String × Json) × List Char)
  | 0, _ => none
  | Nat.succ fuel, cs =>
    match cs with
    | [] => none
    | c :: r =>
      if c = rbrace then some ([], r)
      else if c = ',' then
        match parseMember fuel (skipWs r) with
        | some (kv, r₂) => (parseMembers fuel r₂).map fun p => (kv :: p.1, p.2)
        | none => none
      else none

end

/-- The text layer of `serde_json::from_str`: parse one JSON document,
allowing surrounding whitespace and requiring the whole input to be
consumed. -/
def parseJsonText (s : String) : Option Json :=
  match parseValue (2 * s.data.length + 2) (skipWs s.data) with
  | some (j, rest) => if skipWs rest = [] then some j else none
  | none => none

/-- Deserialize a JSON value as a Rust `String`. -/
def decodeStr : Json → Option String
  | .str s => some s
  | _ => none

/-- Deserialize a sequence of JSON values as strings. -/
def decodeStrList : List Json → Option (List String)
  | [] => some []
  | j :: js =>
    match decodeStr j, decodeStrList js with
    | some s, some l => some (s :: l)
    | _, _ => none

/-- Deserialize a JSON value as a `Vec<String>`. -/
def decodeArgs : Json → Option (List String)
  | .arr xs => decodeStrList xs
  | _ => none

/-- The derived `Deserialize` of `Entry` over the members of a JSON
object: fields may come in any order, unknown fields are ignored,
duplicate or missing known fields are errors. -/
def entryOfFields : List (String × Json) → Option String → Option String →
    Option (List String) → Option Entry
  | [], d, f, a => d.bind fun dv => f.bind fun fv => a.map fun av => ⟨dv, fv, av⟩
  | (k, v) :: fs, d, f, a =>
    if k = "directory" then
      if d.isSome then none
      else
        match decodeStr v with
        | some s => entryOfFields fs (some s) f a
        | none => none
    else if k = "file" then
      if f.isSome then none
      else
        match decodeStr v with
        | some s => entryOfFields fs d (some s) a
        | none => none
    else if k = "arguments" then
      if a.isSome then none
      else
        match decodeArgs v with
        | some l => entryOfFields fs d f (some l)
        | none => none
    else entryOfFields fs d f a

/-- The derived `Deserialize` of `Entry`. -/
def Entry.fromJson : Json → Option Entry
  | .obj fs => entryOfFields fs none none none
  | _ => none

/-- Deserialize a sequence of JSON values as entries. -/
def decodeEntryList : List Json → Option (List Entry)
  | [] => some []
  | j :: js =>
    match Entry.fromJson j, decodeEntryList js with
    | some e, some l => some (e :: l)
    | _, _ => none

/-- `BTreeSet<Entry>` deserialization: a JSON array whose elements each
deserialize, inserted in document order. -/
def entriesFromJson : Json → Option (List Entry)
  | .arr xs => (decodeEntryList xs).map entrySetOf
  | _ => none

/-- `serde_json::from_str::<BTreeSet<Entry>>`. -/
def fromStr (s : String) : Option (List Entry) :=
  (parseJsonText s).bind entriesFromJson

/-- Rust `char::is_whitespace` (the Unicode White_Space property). -/
def rustIsWs (c : Char) : Bool :=
  (9 ≤ c.toNat && c.toNat ≤ 13) || c.toNat = 32 || c.toNat = 0x85 || c.toNat = 0xA0 ||
    c.toNat = 0x1680 || (0x2000 ≤ c.toNat && c.toNat ≤ 0x200A) || c.toNat = 0x2028 ||
    c.toNat = 0x2029 || c.toNat = 0x202F || c.toNat = 0x205F || c.toNat = 0x3000

/-- Rust `str::trim`. -/
def rustTrim (cs : List Char) : List Char :=
  ((cs.dropWhile rustIsWs).reverse.dropWhile rustIsWs).reverse

/-- Loading the database (src/main.rs lines 97-101): empty or
whitespace-only content gives the empty set, otherwise the content must
parse; `none` models the propagated parse error. -/
def loadEntries (data : String) : Option (List Entry) :=
  if rustTrim data.data = [] then some []
  else fromStr data

/-- Outcome of one `process_compile_commands_json` run on an explicit
file-content state: the resulting content, whether the run succeeded, and
whether the truncate-and-write step ran. -/
structure SyncOut where
  file : Option String
  ok : Bool
  wrote : Bool
deriving DecidableEq, Repr

/-- `process_compile_commands_json` (src/main.rs lines 68-130) on an
explicit file-content state (`none` = the file is absent): ensure the
file exists (an absent file is created empty), load, merge, and
truncate-and-write only when the computed set differs from the loaded
one. -/
def synchronize (fs : Option String) (directory : String) (arguments : List String)
    (files : List String) : SyncOut :=
  match loadEntries (fs.getD "") with
  | none => ⟨some (fs.getD ""), false, false⟩
  | some old_entries =>
    if newEntries old_entries directory arguments files ≠ old_entries then
      ⟨some (serializePretty (newEntries old_entries directory arguments files) ++ "\n"),
        true, true⟩
    else ⟨some (fs.getD ""), true, false⟩

/-- The kinds of I/O error relevant to the create-new step. -/
inductive CreateErrorKind where
  | alreadyExists
  | permissionDenied
  | other
deriving DecidableEq, Repr

/-- Result of the `File::options().create_new(true).open` attempt. -/
inductive CreateResult where
  | created
  | failed (kind : CreateErrorKind)
deriving DecidableEq, Repr

/-- src/main.rs lines 74-83: an `AlreadyExists` creation failure is
swallowed and the operation continues, any other creation failure is
returned as the operation's error. -/
def createStep : CreateResult → Except CreateErrorKind Unit
  | .created => .ok ()
  | .failed .alreadyExists => .ok ()
  | .failed k => .error k

/-- Prefix test on character lists. -/
def beginsWith : List Char → List Char → Bool
  | [], _ => true
  | _ :: _, [] => false
  | p :: ps, c :: cs => decide (p = c) && beginsWith ps cs

/-- Rust `str::ends_with` for a literal suffix. -/
def endsWithB (s suffix : String) : Bool :=
  beginsWith suffix.data.reverse s.data.reverse

/-- Non-Windows source-file detection in `main` (src/main.rs lines
175-186): case-sensitive suffix match against `.c`, `.cc`, `.cpp`. -/
def isSourceFileUnix (arg : String) : Bool :=
  endsWithB arg ".c" || endsWithB arg ".cc" || endsWithB arg ".cpp"

/-- `str::to_lowercase` as it acts on ASCII.  (Unicode lowercasing maps
no non-ASCII character to any character of the ASCII suffixes compared
against, so restricting to the ASCII action does not change the suffix
comparison below.) -/
def lowerChar (c : Char) : Char :=
  if 'A' ≤ c ∧ c ≤ 'Z' then Char.ofNat (c.toNat + 32) else c

/-- Lowercasing of a whole string. -/
def toLowerStr (s : String) : String := String.mk (s.data.map lowerChar)

/-- Windows source-file detection in `main`: the argument is lowercased
before the same suffix match. -/
def isSourceFileWindows (arg : String) : Bool :=
  endsWithB (toLowerStr arg) ".c" || endsWithB (toLowerStr arg) ".cc" ||
    endsWithB (toLowerStr arg) ".cpp"

/-- `BTreeSet<String>::insert` (ordered insertion, keep existing). -/
def insS (a : String) : List String → List String
  | [] => [a]
  | b :: bs => if strLtb a b then a :: b :: bs
      else if a = b then b :: bs else b :: insS a bs

/-- Collect an iterator of strings into a `BTreeSet<String>`. -/
def strSetOf (l : List String) : List String := l.foldl (fun acc x => insS x acc) []

/-- The `main` flow around the database call (src/main.rs lines 170-196):
collect the source-file arguments into a set; when none are found the
database is not touched at all, otherwise synchronize with argv[0]
replaced by the resolved compiler path. -/
def runMain (argv : List String) (fs : Option String) (directory : String)
    (compiler : String) : SyncOut :=
  let files := strSetOf ((argv.drop 1).filter isSourceFileUnix)
  if files.isEmpty then ⟨fs, true, false⟩
  else synchronize fs directory (compiler :: argv.drop 1) files

theorem skipWs_cons_of_ws {c : Char} (h : isJsonWs c = true) (cs : List Char) :
    skipWs (c :: cs) = skipWs cs := by
  rw [skipWs, if_pos h]

theorem skipWs_cons_of_not_ws {c : Char} (h : isJsonWs c = false) (cs : List Char) :
    skipWs (c :: cs) = c :: cs := by
  rw [skipWs, if_neg (by simp [h])]

theorem skipWs_replicate (n : Nat) (rest : List Char) :
    skipWs (List.replicate n ' ' ++ rest) = skipWs rest := by
  induction n with
  | zero => simp
  | succ k ih => rw [List.replicate_succ, List.cons_append, skipWs_cons_of_ws (by decide), ih]

theorem skipWs_nlIndent (d : Nat) (rest : List Char) :
    skipWs (nlIndent d ++ rest) = skipWs rest := by
  rw [nlIndent, List.cons_append, skipWs_cons_of_ws (by decide), skipWs_replicate]

theorem hexVal_hexDigit : ∀ k < 16, hexVal (hexDigit k) = some k := by decide

theorem parseStringBody_cons (fuel : Nat) (c : Char) (cs : List Char) :
    parseStringBody (fuel + 1) (c :: cs) =
      if c = '"' then some ([], cs)
      else if c = '\\' then
        match parseEscape cs with
        | some (ch, cs₂) => (parseStringBody fuel cs₂).map fun p => (ch :: p.1, p.2)
        | none => none
      else if c.toNat < 32 then none
      else (parseStringBody fuel cs).map fun p => (c :: p.1, p.2) := by
  rw [parseStringBody]

theorem escapeList_length_ge : ∀ cs : List Char, cs.length ≤ (escapeList cs).length := by
  intro cs
  induction cs with
  | nil => simp [escapeList]
  | cons c cs ih =>
    rw [escapeList, List.length_append, List.length_cons]
    have : 1 ≤ (escapeChar c).length := by
      rw [escapeChar]
      repeat' split
      all_goals simp
    omega

theorem parseStringBody_escape :
    ∀ (cs : List Char) (fuel : Nat) (rest : List Char), cs.length < fuel →
      parseStringBody fuel (escapeList cs ++ '"' :: rest) = some (cs, rest) := by
  intro cs
  induction cs with
  | nil =>
    intro fuel rest hf
    obtain ⟨f, rfl⟩ : ∃ f, fuel = f + 1 := ⟨fuel - 1, by omega⟩
    rw [escapeList, List.nil_append, parseStringBody_cons, if_pos rfl]
  | cons c cs ih =>
    intro fuel rest hf
    obtain ⟨f, rfl⟩ : ∃ f, fuel = f + 1 := ⟨fuel - 1, by omega⟩
    have hfc : cs.length < f := by
      simp only [List.length_cons] at hf
      omega
    rw [escapeList, List.append_assoc]
    by_cases h1 : c = '"'
    · subst h1
      rw [show escapeChar '"' = ['\\', '"'] from rfl]
      rw [List.cons_append, List.cons_append, List.nil_append, parseStringBody_cons,
        if_neg (by decide), if_pos rfl,
        show parseEscape ('"' :: (escapeList cs ++ '"' :: rest)) =
          some ('"', escapeList cs ++ '"' :: rest) from rfl]
      simp only [ih f rest hfc]; rfl
    · by_cases h2 : c = '\\'
      · subst h2
        rw [show escapeChar '\\' = ['\\', '\\'] from rfl]
        rw [List.cons_append, List.cons_append, List.nil_append, parseStringBody_cons,
          if_neg (by decide), if_pos rfl,
          show parseEscape ('\\' :: (escapeList cs ++ '"' :: rest)) =
            some ('\\', escapeList cs ++ '"' :: rest) from rfl]
        simp only [ih f rest hfc]; rfl
      · by_cases h3 : c.toNat = 8
        · have hc : c = Char.ofNat 8 := by rw [← Char.ofNat_toNat c, h3]
          subst hc
          rw [show escapeChar (Char.ofNat 8) = ['\\', 'b'] from rfl]
          rw [List.cons_append, List.cons_append, List.nil_append, parseStringBody_cons,
            if_neg (by decide), if_pos rfl,
            show parseEscape ('b' :: (escapeList cs ++ '"' :: rest)) =
              some (Char.ofNat 8, escapeList cs ++ '"' :: rest) from rfl]
          simp only [ih f rest hfc]; rfl
        · by_cases h4 : c.toNat = 9
          · have hc : c = '\t' := by rw [← Char.ofNat_toNat c, h4]
            subst hc
            rw [show escapeChar '\t' = ['\\', 't'] from rfl]
            rw [List.cons_append, List.cons_append, List.nil_append, parseStringBody_cons,
              if_neg (by decide), if_pos rfl,
              show parseEscape ('t' :: (escapeList cs ++ '"' :: rest)) =
                some ('\t', escapeList cs ++ '"' :: rest) from rfl]
            simp only [ih f rest hfc]; rfl
          · by_cases h5 : c.toNat = 10
            · have hc : c = '\n' := by rw [← Char.ofNat_toNat c, h5]
              subst hc
              rw [show escapeChar '\n' = ['\\', 'n'] from rfl]
              rw [List.cons_append, List.cons_append, List.nil_append, parseStringBody_cons,
                if_neg (by decide), if_pos rfl,
                show parseEscape ('n' :: (escapeList cs ++ '"' :: rest)) =
                  some ('\n', escapeList cs ++ '"' :: rest) from rfl]
              simp only [ih f rest hfc]; rfl
            · by_cases h6 : c.toNat = 12
              · have hc : c = Char.ofNat 12 := by rw [← Char.ofNat_toNat c, h6]
                subst hc
                rw [show escapeChar (Char.ofNat 12) = ['\\', 'f'] from rfl]
                rw [List.cons_append, List.cons_append, List.nil_append,
                  parseStringBody_cons, if_neg (by decide), if_pos rfl,
                  show parseEscape ('f' :: (escapeList cs ++ '"' :: rest)) =
                    some (Char.ofNat 12, escapeList cs ++ '"' :: rest) from rfl]
                simp only [ih f rest hfc]; rfl
              · by_cases h7 : c.toNat = 13
                · have hc : c = Char.ofNat 13 := by rw [← Char.ofNat_toNat c, h7]
                  subst hc
                  rw [show escapeChar (Char.ofNat 13) = ['\\', 'r'] from rfl]
                  rw [List.cons_append, List.cons_append, List.nil_append,
                    parseStringBody_cons, if_neg (by decide), if_pos rfl,
                    show parseEscape ('r' :: (escapeList cs ++ '"' :: rest)) =
                      some (Char.ofNat 13, escapeList cs ++ '"' :: rest) from rfl]
                  simp only [ih f rest hfc]; rfl
                · by_cases h8 : c.toNat < 32
                  · rw [escapeChar, if_neg h1, if_neg h2, if_neg h3, if_neg h4, if_neg h5,
                      if_neg h6, if_neg h7, if_pos h8]
                    rw [List.cons_append, List.cons_append, List.cons_append,
                      List.cons_append, List.cons_append, List.cons_append,
                      List.nil_append]
                    rw [parseStringBody_cons, if_neg (by decide), if_pos rfl]
                    rw [show ∀ X : List Char, parseEscape ('u' :: X) = parseUEscape X from
                      fun X => rfl]
                    rw [parseUEscape]
                    rw [show hexVal '0' = some 0 from rfl,
                      hexVal_hexDigit (c.toNat / 16) (by omega),
                      hexVal_hexDigit (c.toNat % 16) (by omega)]
                    simp only []
                    rw [show ((0 * 16 + 0) * 16 + c.toNat / 16) * 16 + c.toNat % 16 =
                      c.toNat from by omega]
                    rw [if_pos (Or.inl (by omega : c.toNat < 0xD800))]
                    simp only [ih f rest hfc, Char.ofNat_toNat]; rfl
                  · rw [escapeChar, if_neg h1, if_neg h2, if_neg h3, if_neg h4, if_neg h5,
                      if_neg h6, if_neg h7, if_neg h8]
                    rw [List.cons_append, List.nil_append, parseStringBody_cons,
                      if_neg h1, if_neg h2, if_neg h8]
                    simp only [ih f rest hfc]; rfl

theorem parseValue_str (fuel : Nat) (s : String) (rest : List Char) :
    parseValue (fuel + 1) (renderString s ++ rest) = some (.str s, rest) := by
  rw [renderString, List.cons_append, parseValue, if_pos rfl, List.append_assoc,
    List.singleton_append]
  have hlen : s.data.length < (escapeList s.data ++ '"' :: rest).length + 1 := by
    have := escapeList_length_ge s.data
    rw [List.length_append, List.length_cons]
    omega
  rw [parseStringBody_escape s.data _ rest hlen]
  rfl

theorem skipWs_renderString (s : String) (rest : List Char) :
    skipWs (renderString s ++ rest) = renderString s ++ rest := by
  rw [renderString, List.cons_append, skipWs_cons_of_not_ws (by decide)]

theorem parseElems_strs :
    ∀ (ss : List String) (fuel d dz : Nat) (rest : List Char),
      2 * ss.length + 2 ≤ fuel →
      parseElems fuel (renderElems (ss.map Json.str) d ++ (nlIndent dz ++ ']' :: rest)) =
        some (ss.map Json.str, rest) := by
  intro ss
  induction ss with
  | nil =>
    intro fuel d dz rest hf
    obtain ⟨h, rfl⟩ : ∃ h, fuel = h + 1 := ⟨fuel - 1, by omega⟩
    obtain ⟨k, rfl⟩ : ∃ k, h = k + 1 := ⟨h - 1, by omega⟩
    rw [List.map_nil, renderElems, List.nil_append, parseElems, skipWs_nlIndent,
      skipWs_cons_of_not_ws (by decide), parseElemsTail, if_pos rfl]
  | cons s ss ih =>
    intro fuel d dz rest hf
    obtain ⟨h, rfl⟩ : ∃ h, fuel = h + 1 := ⟨fuel - 1, by omega⟩
    obtain ⟨k, rfl⟩ : ∃ k, h = k + 1 := ⟨h - 1, by omega⟩
    obtain ⟨k₂, rfl⟩ : ∃ k₂, k = k₂ + 1 := ⟨k - 1, by simp at hf; omega⟩
    rw [List.map_cons, renderElems, List.cons_append, parseElems,
      skipWs_cons_of_not_ws (by decide), parseElemsTail, if_neg (by decide),
      if_pos rfl]
    rw [show renderJson (Json.str s) d = renderString s from rfl]
    simp only [List.append_assoc]
    rw [skipWs_nlIndent, skipWs_renderString]
    rw [parseValue_str]
    have hk : 2 * ss.length + 2 ≤ k₂ + 1 := by simp at hf; omega
    simp only [ih (k₂ + 1) d dz rest hk]
    rfl


theorem parseArrayBody_cons_ne (fuel : Nat) (ch : Char) (tl : List Char) (h : ¬ch = ']') :
    parseArrayBody (fuel + 1) (ch :: tl) =
      match parseValue fuel (ch :: tl) with
      | some (j, r) => (parseElems fuel r).map fun p => (Json.arr (j :: p.1), p.2)
      | none => none := by
  rw [parseArrayBody, if_neg h]

theorem renderString_cons (s : String) (rest : List Char) :
    renderString s ++ rest = '"' :: (escapeList s.data ++ ['"'] ++ rest) := by
  rw [renderString, List.cons_append, List.append_assoc]

theorem parseValue_strArr :
    ∀ (ss : List String) (fuel d : Nat) (rest : List Char),
      2 * ss.length + 3 ≤ fuel →
      parseValue fuel (renderJson (.arr (ss.map Json.str)) d ++ rest) =
        some (.arr (ss.map Json.str), rest) := by
  intro ss fuel d rest hf
  obtain ⟨f, rfl⟩ : ∃ f, fuel = f + 1 := ⟨fuel - 1, by omega⟩
  obtain ⟨g, rfl⟩ : ∃ g, f = g + 1 := ⟨f - 1, by omega⟩
  cases ss with
  | nil =>
    rw [List.map_nil, show renderJson (Json.arr []) d = ['[', ']'] from rfl]
    rw [List.cons_append, List.singleton_append, parseValue, if_neg (by decide),
      if_pos rfl, skipWs_cons_of_not_ws (by decide), parseArrayBody, if_pos rfl]
  | cons s ss =>
    obtain ⟨g₂, rfl⟩ : ∃ g₂, g = g₂ + 1 := ⟨g - 1, by simp at hf; omega⟩
    rw [List.map_cons, renderJson, List.cons_append, parseValue, if_neg (by decide),
      if_pos rfl]
    rw [show renderJson (Json.str s) (d + 1) = renderString s from rfl]
    simp only [List.append_assoc]
    rw [skipWs_nlIndent, skipWs_renderString]
    rw [renderString_cons, parseArrayBody_cons_ne _ _ _ (by decide), ← renderString_cons]
    rw [parseValue_str]
    have hk : 2 * ss.length + 2 ≤ g₂ + 1 := by simp at hf; omega
    rw [List.singleton_append]
    simp only [parseElems_strs ss (g₂ + 1) (d + 1) d rest hk]
    rfl

theorem escape_len_lt (s : String) (X : List Char) :
    s.data.length < (escapeList s.data ++ '"' :: X).length + 1 := by
  have := escapeList_length_ge s.data
  rw [List.length_append, List.length_cons]
  omega

theorem skipWs_renderMember (k : String) (v : Json) (d : Nat) (rest : List Char) :
    skipWs (renderMember (k, v) d ++ rest) = renderMember (k, v) d ++ rest := by
  rw [renderMember, List.append_assoc, skipWs_renderString, ← List.append_assoc,
    ← renderMember]

theorem renderMember_cons (k : String) (v : Json) (d : Nat) (rest : List Char) :
    renderMember (k, v) d ++ rest =
      '"' :: (escapeList k.data ++ ['"'] ++ ((':' :: ' ' :: renderJson v d) ++ rest)) := by
  rw [renderMember, List.append_assoc, renderString_cons]

theorem parseObjBody_cons_ne (fuel : Nat) (ch : Char) (tl : List Char)
    (h : ¬ch = rbrace) :
    parseObjBody (fuel + 1) (ch :: tl) =
      match parseMember fuel (ch :: tl) with
      | some (kv, r) => (parseMembers fuel r).map fun p => (Json.obj (kv :: p.1), p.2)
      | none => none := by
  rw [parseObjBody, if_neg h]

theorem parseMember_parse (fuel : Nat) (k : String) (v : Json) (d : Nat)
    (rest : List Char)
    (hskip : skipWs (renderJson v d ++ rest) = renderJson v d ++ rest)
    (hv : parseValue fuel (renderJson v d ++ rest) = some (v, rest)) :
    parseMember (fuel + 2) (renderMember (k, v) d ++ rest) = some ((k, v), rest) := by
  rw [renderMember_cons, parseMember, if_pos rfl, List.append_assoc,
    List.singleton_append]
  simp only [parseStringBody_escape k.data _ _ (escape_len_lt k _)]
  rw [show String.mk k.data = k from rfl]
  rw [show skipWs (':' :: ' ' :: renderJson v d ++ rest) =
    ':' :: ' ' :: renderJson v d ++ rest from skipWs_cons_of_not_ws (by decide) _]
  rw [show parseMemberColon (fuel + 1) k (':' :: ' ' :: renderJson v d ++ rest) =
    (parseValue fuel (skipWs (' ' :: renderJson v d ++ rest))).map
      fun v => ((k, v.1), v.2) from rfl]
  rw [show skipWs (' ' :: renderJson v d ++ rest) =
    skipWs (renderJson v d ++ rest) from skipWs_cons_of_ws (by decide) _]
  rw [hskip, hv]
  rfl

theorem parseMembers_cons (fuel d : Nat) (m : String × Json)
    (ms : List (String × Json)) (TAIL : List Char) :
    parseMembers (fuel + 2) (renderMembers (m :: ms) d ++ TAIL) =
      match parseMember fuel (renderMember m d ++ (renderMembers ms d ++ TAIL)) with
      | some (kv, r₂) => (parseMembers fuel r₂).map fun p => (kv :: p.1, p.2)
      | none => none := by
  obtain ⟨k, v⟩ := m
  rw [renderMembers, List.cons_append, parseMembers, skipWs_cons_of_not_ws (by decide),
    parseMembersTail, if_neg (by decide), if_pos rfl]
  simp only [List.append_assoc]
  rw [skipWs_nlIndent, skipWs_renderMember]

theorem parseMembers_nil (fuel d dz : Nat) (rest : List Char) :
    parseMembers (fuel + 2) (renderMembers [] d ++ (nlIndent dz ++ rbrace :: rest)) =
      some ([], rest) := by
  rw [renderMembers, List.nil_append, parseMembers, skipWs_nlIndent,
    skipWs_cons_of_not_ws (by decide), parseMembersTail, if_pos rfl]

theorem skipWs_renderArr (xs : List Json) (d : Nat) (rest : List Char) :
    skipWs (renderJson (.arr xs) d ++ rest) = renderJson (.arr xs) d ++ rest := by
  cases xs with
  | nil =>
    rw [show renderJson (Json.arr []) d = ['[', ']'] from rfl, List.cons_append,
      skipWs_cons_of_not_ws (by decide)]
  | cons x xs =>
    rw [renderJson, List.cons_append, skipWs_cons_of_not_ws (by decide)]

theorem parseValue_entryObj (e : Entry) (fuel d : Nat) (rest : List Char)
    (hf : 2 * e.arguments.length + 11 ≤ fuel) :
    parseValue fuel (renderJson (Entry.toJson e) d ++ rest) =
      some (Entry.toJson e, rest) := by
  obtain ⟨b, hb, rfl⟩ :
      ∃ b, 2 * e.arguments.length + 3 ≤ b ∧ fuel = b + 2 + 2 + 2 + 1 + 1 :=
    ⟨fuel - 8, by omega, by omega⟩
  rw [Entry.toJson, renderJson, List.cons_append, parseValue, if_neg (by decide),
    if_neg (by decide), if_pos rfl]
  simp only [List.append_assoc, List.singleton_append]
  rw [skipWs_nlIndent, skipWs_renderMember]
  rw [renderMember_cons, parseObjBody_cons_ne _ _ _ (by decide), ← renderMember_cons]
  have hm₁ : parseMember (b + 2 + 2 + 2)
      (renderMember ("directory", Json.str e.directory) (d + 1) ++
        (renderMembers [("file", Json.str e.file),
          ("arguments", Json.arr (e.arguments.map Json.str))] (d + 1) ++
          (nlIndent d ++ rbrace :: rest))) =
      some (("directory", Json.str e.directory),
        renderMembers [("file", Json.str e.file),
          ("arguments", Json.arr (e.arguments.map Json.str))] (d + 1) ++
          (nlIndent d ++ rbrace :: rest)) :=
    parseMember_parse (b + 2 + 2) _ _ _ _
      (by rw [show renderJson (Json.str e.directory) (d + 1) =
            renderString e.directory from rfl, skipWs_renderString])
      (by rw [show renderJson (Json.str e.directory) (d + 1) =
            renderString e.directory from rfl]
          exact parseValue_str (b + 2 + 1) _ _)
  simp only [hm₁]
  rw [parseMembers_cons (b + 2 + 2) (d + 1) _ _ _]
  have hm₂ : parseMember (b + 2 + 2)
      (renderMember ("file", Json.str e.file) (d + 1) ++
        (renderMembers [("arguments", Json.arr (e.arguments.map Json.str))] (d + 1) ++
          (nlIndent d ++ rbrace :: rest))) =
      some (("file", Json.str e.file),
        renderMembers [("arguments", Json.arr (e.arguments.map Json.str))] (d + 1) ++
          (nlIndent d ++ rbrace :: rest)) :=
    parseMember_parse (b + 2) _ _ _ _
      (by rw [show renderJson (Json.str e.file) (d + 1) =
            renderString e.file from rfl, skipWs_renderString])
      (by rw [show renderJson (Json.str e.file) (d + 1) =
            renderString e.file from rfl]
          exact parseValue_str (b + 1) _ _)
  simp only [hm₂]
  rw [parseMembers_cons (b + 2) (d + 1) _ _ _]
  have hm₃ : parseMember (b + 2)
      (renderMember ("arguments", Json.arr (e.arguments.map Json.str)) (d + 1) ++
        (renderMembers [] (d + 1) ++ (nlIndent d ++ rbrace :: rest))) =
      some (("arguments", Json.arr (e.arguments.map Json.str)),
        renderMembers [] (d + 1) ++ (nlIndent d ++ rbrace :: rest)) :=
    parseMember_parse b _ _ _ _
      (skipWs_renderArr (e.arguments.map Json.str) (d + 1) _)
      (parseValue_strArr e.arguments b (d + 1) _ hb)
  simp only [hm₃]
  rw [parseMembers_nil b (d + 1) d rest]
  rfl

/-- Fuel sufficient to parse a rendered entry list (used only to relate
the parser's fuel argument to the rendered length). -/
def entsFuel : List Entry → Nat
  | [] => 2
  | e :: l => 2 * e.arguments.length + 13 + entsFuel l

theorem entsFuel_pos (l : List Entry) : 2 ≤ entsFuel l := by
  cases l <;> simp [entsFuel] <;> omega

theorem skipWs_renderEntry (e : Entry) (d : Nat) (rest : List Char) :
    skipWs (renderJson (Entry.toJson e) d ++ rest) =
      renderJson (Entry.toJson e) d ++ rest := by
  rw [Entry.toJson, renderJson, List.cons_append, skipWs_cons_of_not_ws (by decide)]

theorem renderEntry_cons (e : Entry) (d : Nat) (rest : List Char) :
    renderJson (Entry.toJson e) d ++ rest =
      lbrace :: ((nlIndent (d + 1) ++
        renderMember ("directory", Json.str e.directory) (d + 1) ++
        renderMembers [("file", Json.str e.file),
          ("arguments", Json.arr (e.arguments.map Json.str))] (d + 1) ++ nlIndent d ++
        [rbrace]) ++ rest) := by
  rw [Entry.toJson, renderJson, List.cons_append]

theorem parseElems_entries :
    ∀ (l : List Entry) (fuel d dz : Nat) (rest : List Char),
      entsFuel l ≤ fuel →
      parseElems fuel (renderElems (l.map Entry.toJson) d ++ (nlIndent dz ++ ']' :: rest)) =
        some (l.map Entry.toJson, rest) := by
  intro l
  induction l with
  | nil =>
    intro fuel d dz rest hf
    rw [entsFuel] at hf
    obtain ⟨h, rfl⟩ : ∃ h, fuel = h + 1 := ⟨fuel - 1, by omega⟩
    obtain ⟨k, rfl⟩ : ∃ k, h = k + 1 := ⟨h - 1, by omega⟩
    rw [List.map_nil, renderElems, List.nil_append, parseElems, skipWs_nlIndent,
      skipWs_cons_of_not_ws (by decide), parseElemsTail, if_pos rfl]
  | cons e l ih =>
    intro fuel d dz rest hf
    rw [entsFuel] at hf
    have hl2 := entsFuel_pos l
    obtain ⟨h, rfl⟩ : ∃ h, fuel = h + 1 := ⟨fuel - 1, by omega⟩
    obtain ⟨k, rfl⟩ : ∃ k, h = k + 1 := ⟨h - 1, by omega⟩
    rw [List.map_cons, renderElems, List.cons_append, parseElems,
      skipWs_cons_of_not_ws (by decide), parseElemsTail, if_neg (by decide), if_pos rfl]
    simp only [List.append_assoc]
    rw [skipWs_nlIndent, skipWs_renderEntry]
    rw [parseValue_entryObj e k d
      (renderElems (l.map Entry.toJson) d ++ (nlIndent dz ++ ']' :: rest)) (by omega)]
    simp only [ih k d dz rest (by omega)]
    rfl

theorem parseValue_entriesArr (l : List Entry) (fuel d : Nat) (rest : List Char)
    (hf : entsFuel l + 3 ≤ fuel) :
    parseValue fuel (renderJson (entriesToJson l) d ++ rest) =
      some (entriesToJson l, rest) := by
  obtain ⟨f, rfl⟩ : ∃ f, fuel = f + 1 := ⟨fuel - 1, by omega⟩
  obtain ⟨g, rfl⟩ : ∃ g, f = g + 1 := ⟨f - 1, by omega⟩
  cases l with
  | nil =>
    rw [entriesToJson, List.map_nil, show renderJson (Json.arr []) d = ['[', ']'] from rfl]
    rw [List.cons_append, List.singleton_append, parseValue, if_neg (by decide),
      if_pos rfl, skipWs_cons_of_not_ws (by decide), parseArrayBody, if_pos rfl]
  | cons e l =>
    rw [entsFuel] at hf
    have hl2 := entsFuel_pos l
    rw [entriesToJson, List.map_cons, renderJson, List.cons_append, parseValue,
      if_neg (by decide), if_pos rfl]
    simp only [List.append_assoc]
    rw [skipWs_nlIndent, skipWs_renderEntry]
    rw [renderEntry_cons, parseArrayBody_cons_ne _ _ _ (by decide), ← renderEntry_cons]
    rw [parseValue_entryObj e g (d + 1)
      (renderElems (l.map Entry.toJson) (d + 1) ++ (nlIndent d ++ ([']'] ++ rest)))
      (by omega)]
    rw [List.singleton_append]
    simp only [parseElems_entries l g (d + 1) d rest (by omega)]
    rfl

theorem renderString_len (s : String) : 2 ≤ (renderString s).length := by
  rw [renderString]
  simp only [List.length_cons, List.length_append]
  omega

theorem renderElems_strs_len (ss : List String) (d : Nat) :
    ss.length ≤ (renderElems (ss.map Json.str) d).length := by
  induction ss with
  | nil => simp [renderElems]
  | cons s ss ih =>
    rw [List.map_cons, renderElems]
    simp only [List.length_cons, List.length_append]
    omega

theorem renderStrArr_len (ss : List String) (d : Nat) :
    ss.length ≤ (renderJson (.arr (ss.map Json.str)) d).length := by
  cases ss with
  | nil => simp
  | cons s ss =>
    rw [List.map_cons, renderJson]
    have h1 := renderElems_strs_len ss (d + 1)
    simp only [List.length_cons, List.length_append]
    omega

theorem renderEntry_len (e : Entry) (d : Nat) :
    e.arguments.length + 7 ≤ (renderJson (Entry.toJson e) d).length := by
  have h := renderEntry_cons e d []
  rw [List.append_nil] at h
  rw [h]
  have h3 : e.arguments.length + 4 ≤
      (renderMember ("arguments", Json.arr (e.arguments.map Json.str)) (d + 1)).length := by
    rw [renderMember]
    have := renderString_len "arguments"
    have := renderStrArr_len e.arguments (d + 1)
    simp only [List.length_append, List.length_cons]
    omega
  rw [show renderMembers [("file", Json.str e.file),
      ("arguments", Json.arr (e.arguments.map Json.str))] (d + 1) =
    ',' :: (nlIndent (d + 1) ++ renderMember ("file", Json.str e.file) (d + 1) ++
      (',' :: (nlIndent (d + 1) ++
        renderMember ("arguments", Json.arr (e.arguments.map Json.str)) (d + 1) ++ [])))
    from by rw [renderMembers, renderMembers, renderMembers]]
  simp only [List.length_cons, List.length_append, List.length_nil]
  omega

theorem entsFuel_le_elems (l : List Entry) (d : Nat) :
    entsFuel l ≤ 2 * (renderElems (l.map Entry.toJson) d).length + 2 := by
  induction l with
  | nil => simp [entsFuel]
  | cons e l ih =>
    rw [entsFuel, List.map_cons, renderElems]
    have he := renderEntry_len e d
    simp only [List.length_cons, List.length_append]
    omega

theorem entsFuel_le_render (l : List Entry) :
    entsFuel l + 3 ≤ 2 * (renderJson (entriesToJson l) 0).length + 2 := by
  cases l with
  | nil =>
    rw [entriesToJson, List.map_nil,
      show renderJson (Json.arr []) 0 = ['[', ']'] from rfl]
    simp [entsFuel]
  | cons e l =>
    rw [entsFuel, entriesToJson, List.map_cons, renderJson]
    have he := renderEntry_len e (0 + 1)
    have hl := entsFuel_le_elems l (0 + 1)
    simp only [List.length_cons, List.length_append]
    omega

theorem parseJsonText_render (l : List Entry) (tail : List Char)
    (htail : skipWs tail = []) :
    parseJsonText (String.mk (renderJson (entriesToJson l) 0 ++ tail)) =
      some (entriesToJson l) := by
  rw [parseJsonText]
  rw [show (String.mk (renderJson (entriesToJson l) 0 ++ tail)).data =
    renderJson (entriesToJson l) 0 ++ tail from rfl]
  rw [entriesToJson, skipWs_renderArr, ← entriesToJson]
  have hf : entsFuel l + 3 ≤
      2 * (renderJson (entriesToJson l) 0 ++ tail).length + 2 := by
    have := entsFuel_le_render l
    rw [List.length_append]
    omega
  rw [parseValue_entriesArr l _ 0 tail hf]
  simp only [htail]
  rfl

theorem parseJsonText_serializePretty (l : List Entry) :
    parseJsonText (serializePretty l) = some (entriesToJson l) := by
  have h := parseJsonText_render l [] rfl
  rw [List.append_nil] at h
  exact h

theorem parseJsonText_serializePretty_nl (l : List Entry) :
    parseJsonText (serializePretty l ++ "\n") = some (entriesToJson l) := by
  have h := parseJsonText_render l ['\n'] rfl
  exact h

theorem decodeStrList_map (ss : List String) :
    decodeStrList (ss.map Json.str) = some ss := by
  induction ss with
  | nil => rfl
  | cons s ss ih =>
    rw [List.map_cons, decodeStrList, ih]
    rfl

theorem entryOfFields_dir (v : Json) (s : String) (fs : List (String × Json))
    (f : Option String) (a : Option (List String)) (hv : decodeStr v = some s) :
    entryOfFields (("directory", v) :: fs) none f a = entryOfFields fs (some s) f a := by
  rw [entryOfFields, if_pos rfl, if_neg (by decide), hv]

theorem entryOfFields_file (v : Json) (s : String) (fs : List (String × Json))
    (d : Option String) (a : Option (List String)) (hv : decodeStr v = some s) :
    entryOfFields (("file", v) :: fs) d none a = entryOfFields fs d (some s) a := by
  rw [entryOfFields, if_neg (by decide), if_pos rfl, if_neg (by decide), hv]

theorem entryOfFields_args (v : Json) (l : List String) (fs : List (String × Json))
    (d f : Option String) (hv : decodeArgs v = some l) :
    entryOfFields (("arguments", v) :: fs) d f none = entryOfFields fs d f (some l) := by
  rw [entryOfFields, if_neg (by decide), if_neg (by decide), if_pos rfl,
    if_neg (by decide), hv]

theorem entry_fromJson_toJson (e : Entry) : Entry.fromJson (Entry.toJson e) = some e := by
  obtain ⟨d, f, a⟩ := e
  rw [Entry.toJson, show Entry.fromJson (Json.obj [("directory", Json.str d),
      ("file", Json.str f), ("arguments", Json.arr (a.map Json.str))]) =
    entryOfFields [("directory", Json.str d), ("file", Json.str f),
      ("arguments", Json.arr (a.map Json.str))] none none none from rfl]
  rw [entryOfFields_dir (Json.str d) d _ _ _ rfl]
  rw [entryOfFields_file (Json.str f) f _ _ _ rfl]
  rw [entryOfFields_args (Json.arr (a.map Json.str)) a _ _ _
    (by rw [decodeArgs, decodeStrList_map])]
  rfl

theorem decodeEntryList_map (l : List Entry) :
    decodeEntryList (l.map Entry.toJson) = some l := by
  induction l with
  | nil => rfl
  | cons e l ih =>
    rw [List.map_cons, decodeEntryList, entry_fromJson_toJson, ih]

theorem mem_foldl_insE_self {x : Entry} :
    ∀ (l base : List Entry),
      x ∈ l.foldl (fun acc e => insE e acc) base ↔ x ∈ base ∨ x ∈ l := by
  intro l
  induction l with
  | nil => intro base; simp
  | cons e l ih =>
    intro base
    rw [List.foldl_cons, ih, mem_insE]
    simp only [List.mem_cons]
    tauto

theorem sorted_foldl_insE_self :
    ∀ (l base : List Entry), EntrySorted base →
      EntrySorted (l.foldl (fun acc e => insE e acc) base) := by
  intro l
  induction l with
  | nil => intro base h; simpa using h
  | cons e l ih =>
    intro base h
    rw [List.foldl_cons]
    exact ih _ (sorted_insE h)

theorem mem_entrySetOf {x : Entry} (l : List Entry) : x ∈ entrySetOf l ↔ x ∈ l := by
  rw [entrySetOf, mem_foldl_insE_self]
  simp

theorem sorted_entrySetOf (l : List Entry) : EntrySorted (entrySetOf l) :=
  sorted_foldl_insE_self l [] (by simp [EntrySorted])

theorem entrySetOf_sorted_id (l : List Entry) (h : EntrySorted l) : entrySetOf l = l :=
  sorted_ext (sorted_entrySetOf l) h fun x => mem_entrySetOf l

theorem entriesFromJson_toJson (l : List Entry) (h : EntrySorted l) :
    entriesFromJson (entriesToJson l) = some l := by
  rw [entriesToJson, entriesFromJson, decodeEntryList_map]
  rw [show (some l).map entrySetOf = some (entrySetOf l) from rfl,
    entrySetOf_sorted_id l h]

theorem fromStr_serializePretty (l : List Entry) (h : EntrySorted l) :
    fromStr (serializePretty l) = some l := by
  rw [fromStr, parseJsonText_serializePretty]
  rw [show (some (entriesToJson l)).bind entriesFromJson =
    entriesFromJson (entriesToJson l) from rfl]
  exact entriesFromJson_toJson l h

theorem fromStr_serializePretty_nl (l : List Entry) (h : EntrySorted l) :
    fromStr (serializePretty l ++ "\n") = some l := by
  rw [fromStr, parseJsonText_serializePretty_nl]
  rw [show (some (entriesToJson l)).bind entriesFromJson =
    entriesFromJson (entriesToJson l) from rfl]
  exact entriesFromJson_toJson l h

theorem rustTrim_eq_nil_iff (cs : List Char) :
    rustTrim cs = [] ↔ ∀ c ∈ cs, rustIsWs c = true := by
  rw [rustTrim]
  constructor
  · intro h c hc
    have h1 : (cs.dropWhile rustIsWs).reverse.dropWhile rustIsWs = [] := by
      have := congrArg List.reverse h
      simpa using this
    rw [List.dropWhile_eq_nil_iff] at h1
    have hsplit := List.takeWhile_append_dropWhile (p := rustIsWs) (l := cs)
    rw [← hsplit] at hc
    rcases List.mem_append.mp hc with hmem | hmem
    · exact List.mem_takeWhile_imp hmem
    · exact h1 c (List.mem_reverse.mpr hmem)
  · intro h
    have h1 : cs.dropWhile rustIsWs = [] :=
      List.dropWhile_eq_nil_iff.mpr fun c hc => h c hc
    rw [h1]
    rfl

theorem serializePretty_nl_data (l : List Entry) :
    (serializePretty l ++ "\n").data = renderJson (entriesToJson l) 0 ++ ['\n'] := rfl

theorem renderEntries_head (l : List Entry) :
    ∃ t, renderJson (entriesToJson l) 0 = '[' :: t := by
  cases l with
  | nil => exact ⟨[']'], rfl⟩
  | cons e l =>
    rw [entriesToJson, List.map_cons, renderJson]
    exact ⟨_, rfl⟩

theorem loadEntries_all_ws (s : String) (h : ∀ c ∈ s.data, rustIsWs c = true) :
    loadEntries s = some [] := by
  rw [loadEntries, if_pos ((rustTrim_eq_nil_iff s.data).mpr h)]

theorem loadEntries_written (l : List Entry) (h : EntrySorted l) :
    loadEntries (serializePretty l ++ "\n") = some l := by
  rw [loadEntries, if_neg ?hne]
  · exact fromStr_serializePretty_nl l h
  case hne =>
    intro h0
    obtain ⟨t, ht⟩ := renderEntries_head l
    rw [serializePretty_nl_data, ht, List.cons_append] at h0
    have := (rustTrim_eq_nil_iff _).mp h0 '[' (by simp)
    simp [rustIsWs] at this

theorem loadEntries_sorted (s : String) (l : List Entry) (h : loadEntries s = some l) :
    EntrySorted l := by
  rw [loadEntries] at h
  by_cases hws : rustTrim s.data = []
  · rw [if_pos hws] at h
    cases h
    simp [EntrySorted]
  · rw [if_neg hws, fromStr] at h
    cases hj : parseJsonText s with
    | none => rw [hj] at h; cases h
    | some j =>
      rw [hj] at h
      cases j with
      | arr xs =>
        rw [show (some (Json.arr xs)).bind entriesFromJson =
          (decodeEntryList xs).map entrySetOf from rfl] at h
        cases hd : decodeEntryList xs with
        | none => rw [hd] at h; exact absurd h (by simp)
        | some es =>
          rw [hd] at h
          have hsome : entrySetOf es = l := Option.some.inj h
          rw [← hsome]
          exact sorted_entrySetOf es
      | str s => exact Option.noConfusion h
      | num s => exact Option.noConfusion h
      | bool b => exact Option.noConfusion h
      | null => exact Option.noConfusion h
      | obj ms => exact Option.noConfusion h

theorem synchronize_load_none (fs : Option String) (dir : String)
    (args files : List String) (h : loadEntries (fs.getD "") = none) :
    synchronize fs dir args files = ⟨some (fs.getD ""), false, false⟩ := by
  rw [synchronize, h]

theorem synchronize_load_some (fs : Option String) (dir : String)
    (args files : List String) (old : List Entry)
    (h : loadEntries (fs.getD "") = some old) :
    synchronize fs dir args files =
      if newEntries old dir args files ≠ old then
        ⟨some (serializePretty (newEntries old dir args files) ++ "\n"), true, true⟩
      else ⟨some (fs.getD ""), true, false⟩ := by
  rw [synchronize, h]

/-- C1: the record set computed by `synchronize` equals the loaded set
with every record keyed on the current directory and a member of `files`
removed, plus one fresh record per file carrying the given directory and
the full given arguments; a single call with files `a.c`, `b.c` on an
empty database produces exactly the two fresh records, with identical
arguments. -/
theorem newEntries_characterization :
    (∀ (old : List Entry) (dir : String) (args : List String) (files : List String)
        (e : Entry),
        e ∈ newEntries old dir args files ↔
          (e ∈ old ∧ (e.directory ≠ dir ∨ e.file ∉ files)) ∨
            (e.directory = dir ∧ e.file ∈ files ∧ e.arguments = args)) ∧
    (∀ (dir : String) (args : List String),
        newEntries [] dir args ["a.c", "b.c"] =
          [⟨dir, "a.c", args⟩, ⟨dir, "b.c", args⟩]) := by
  refine ⟨fun old dir args files e => mem_newEntries, fun dir args => ?_⟩
  rw [newEntries, show ([] : List Entry).filter
    (fun e => !(e.directory == dir) || !(["a.c", "b.c"].contains e.file)) = [] from rfl]
  rw [List.foldl_cons, List.foldl_cons, List.foldl_nil]
  rw [show insE ⟨dir, "a.c", args⟩ [] = [⟨dir, "a.c", args⟩] from rfl]
  rw [insE, if_neg ?hlt, if_neg ?heq]
  · rfl
  case hlt =>
    simp only [Entry.ltb, strLtb_irrefl, Bool.false_or, Bool.or_eq_true,
      Bool.and_eq_true, decide_eq_true_eq]
    rintro ⟨-, h | ⟨h, -⟩⟩
    · exact absurd h (by rw [show strLtb "b.c" "a.c" = false from rfl]; simp)
    · exact absurd h (by decide)
  case heq =>
    intro h
    have := congrArg Entry.file h
    simp at this

/-- C4: every loaded record whose directory differs from the current
directory, or whose file is not in the call's file set, is kept unchanged
in the computed record set; records for the same file in different
directories coexist. -/
theorem frame_preservation (old : List Entry) (dirA : String) (args : List String)
    (files : List String) (e : Entry) (he : e ∈ old)
    (hkey : e.directory ≠ dirA ∨ e.file ∉ files) :
    e ∈ newEntries old dirA args files :=
  mem_newEntries.mpr (Or.inl ⟨he, hkey⟩)

/-- C4 witness: a record for the same file in another directory survives
an update concretely. -/
theorem frame_preservation_witness :
    (⟨"dirB", "a.c", ["cc", "-O0"]⟩ : Entry) ∈
      newEntries [⟨"dirB", "a.c", ["cc", "-O0"]⟩] "dirA" ["cc", "-O2", "a.c"] ["a.c"] :=
  frame_preservation [⟨"dirB", "a.c", ["cc", "-O0"]⟩] "dirA" ["cc", "-O2", "a.c"]
    ["a.c"] ⟨"dirB", "a.c", ["cc", "-O0"]⟩ (by simp)
    (Or.inl (by simp))

/-- C9: the engine never deduplicates untouched records by their
`(directory, file)` key: two loaded records sharing directory and file
but with different arguments, neither keyed by the current invocation,
are both preserved in the computed set and both appear in the serialized
array. -/
theorem no_key_dedup (old : List Entry) (dir file : String) (a₁ a₂ : List String)
    (d : String) (args files : List String)
    (h₁ : (⟨dir, file, a₁⟩ : Entry) ∈ old) (h₂ : (⟨dir, file, a₂⟩ : Entry) ∈ old)
    (hkey : dir ≠ d ∨ file ∉ files) :
    ((⟨dir, file, a₁⟩ : Entry) ∈ newEntries old d args files ∧
      (⟨dir, file, a₂⟩ : Entry) ∈ newEntries old d args files) ∧
    (Entry.toJson ⟨dir, file, a₁⟩ ∈ (newEntries old d args files).map Entry.toJson ∧
      Entry.toJson ⟨dir, file, a₂⟩ ∈ (newEntries old d args files).map Entry.toJson) := by
  have m₁ : (⟨dir, file, a₁⟩ : Entry) ∈ newEntries old d args files :=
    mem_newEntries.mpr (Or.inl ⟨h₁, hkey⟩)
  have m₂ : (⟨dir, file, a₂⟩ : Entry) ∈ newEntries old d args files :=
    mem_newEntries.mpr (Or.inl ⟨h₂, hkey⟩)
  exact ⟨⟨m₁, m₂⟩, List.mem_map_of_mem _ m₁, List.mem_map_of_mem _ m₂⟩

/-- C9 witness: two concrete records sharing `(directory, file)` with
different arguments both survive an unrelated update. -/
theorem no_key_dedup_witness :
    ((⟨"d1", "a.c", ["cc", "-O1"]⟩ : Entry) ∈
        newEntries [⟨"d1", "a.c", ["cc", "-O1"]⟩, ⟨"d1", "a.c", ["cc", "-O2"]⟩]
          "d2" ["cc", "b.c"] ["b.c"] ∧
      (⟨"d1", "a.c", ["cc", "-O2"]⟩ : Entry) ∈
        newEntries [⟨"d1", "a.c", ["cc", "-O1"]⟩, ⟨"d1", "a.c", ["cc", "-O2"]⟩]
          "d2" ["cc", "b.c"] ["b.c"]) ∧
    (Entry.toJson ⟨"d1", "a.c", ["cc", "-O1"]⟩ ∈
        (newEntries [⟨"d1", "a.c", ["cc", "-O1"]⟩, ⟨"d1", "a.c", ["cc", "-O2"]⟩]
          "d2" ["cc", "b.c"] ["b.c"]).map Entry.toJson ∧
      Entry.toJson ⟨"d1", "a.c", ["cc", "-O2"]⟩ ∈
        (newEntries [⟨"d1", "a.c", ["cc", "-O1"]⟩, ⟨"d1", "a.c", ["cc", "-O2"]⟩]
          "d2" ["cc", "b.c"] ["b.c"]).map Entry.toJson) :=
  no_key_dedup [⟨"d1", "a.c", ["cc", "-O1"]⟩, ⟨"d1", "a.c", ["cc", "-O2"]⟩]
    "d1" "a.c" ["cc", "-O1"] ["cc", "-O2"] "d2" ["cc", "b.c"] ["b.c"]
    (by simp) (by simp) (Or.inl (by simp))

/-- C2: recording `(dir, a.c)` with `-O2` and then with `-O3` leaves
exactly one record keyed `(dir, a.c)` in the computed database, carrying
the second argument list: a new record supersedes any prior record for
the same key. -/
theorem supersession (dir : String) (old : List Entry) (hs : EntrySorted old) :
    (newEntries (newEntries old dir ["cc", "-O2"] ["a.c"]) dir ["cc", "-O3"]
        ["a.c"]).filter (fun e => e.directory == dir && e.file == "a.c") =
      [⟨dir, "a.c", ["cc", "-O3"]⟩] := by
  have hs2 : EntrySorted (newEntries (newEntries old dir ["cc", "-O2"] ["a.c"])
      dir ["cc", "-O3"] ["a.c"]) :=
    sorted_newEntries _ _ _ (sorted_newEntries _ _ _ hs)
  refine sorted_ext (List.Pairwise.filter _ hs2) (by simp [EntrySorted]) fun e => ?_
  rw [List.mem_filter, mem_newEntries]
  constructor
  · rintro ⟨h | hfr, hcond⟩
    · simp only [Bool.and_eq_true, beq_iff_eq] at hcond
      rcases h.2 with hk | hk
      · exact absurd hcond.1 hk
      · exact absurd (by simp [hcond.2]) hk
    · obtain ⟨hd, hf, ha⟩ := hfr
      obtain ⟨ed, ef, ea⟩ := e
      simp only at hd hf ha
      simp only [List.mem_singleton, Entry.mk.injEq]
      refine ⟨hd, ?_, ha⟩
      simpa using hf
  · intro he
    rw [List.mem_singleton] at he
    subst he
    exact ⟨Or.inr ⟨rfl, by simp, rfl⟩, by simp⟩

/-- C2 witness at a concrete directory on the empty database. -/
theorem supersession_witness :
    (newEntries (newEntries [] "d" ["cc", "-O2"] ["a.c"]) "d" ["cc", "-O3"]
        ["a.c"]).filter (fun e => e.directory == "d" && e.file == "a.c") =
      [⟨"d", "a.c", ["cc", "-O3"]⟩] :=
  supersession "d" [] (by simp [EntrySorted])

/-- C3: a second `synchronize` with identical inputs leaves the database
file byte-identical and performs no write; in general, whenever the
computed record set equals the loaded one, the truncate-and-write step is
skipped. -/
theorem sync_idempotent (fs : Option String) (dir : String) (args files : List String) :
    ((synchronize (synchronize fs dir args files).file dir args files).file =
        (synchronize fs dir args files).file ∧
      (synchronize (synchronize fs dir args files).file dir args files).wrote = false) ∧
    (∀ old : List Entry, loadEntries (fs.getD "") = some old →
        newEntries old dir args files = old →
        (synchronize fs dir args files).wrote = false) := by
  constructor
  · cases hl : loadEntries (fs.getD "") with
    | none =>
      rw [synchronize_load_none fs dir args files hl]
      rw [show (SyncOut.mk (some (fs.getD "")) false false).file =
        some (fs.getD "") from rfl]
      rw [synchronize_load_none (some (fs.getD "")) dir args files hl]
      exact ⟨rfl, rfl⟩
    | some old =>
      rw [synchronize_load_some fs dir args files old hl]
      by_cases hne : newEntries old dir args files ≠ old
      · rw [if_pos hne]
        have hsorted_old : EntrySorted old := loadEntries_sorted _ _ hl
        rw [show (SyncOut.mk
          (some (serializePretty (newEntries old dir args files) ++ "\n")) true
            true).file =
          some (serializePretty (newEntries old dir args files) ++ "\n") from rfl]
        rw [synchronize_load_some
          (some (serializePretty (newEntries old dir args files) ++ "\n")) dir args
          files (newEntries old dir args files)
          (loadEntries_written _ (sorted_newEntries dir args files hsorted_old))]
        rw [if_neg (by simp [newEntries_idem dir args files hsorted_old])]
        exact ⟨rfl, rfl⟩
      · rw [if_neg hne]
        rw [show (SyncOut.mk (some (fs.getD "")) true false).file =
          some (fs.getD "") from rfl]
        rw [synchronize_load_some (some (fs.getD "")) dir args files old hl]
        rw [if_neg hne]
        exact ⟨rfl, rfl⟩
  · intro old hl hnew
    rw [synchronize_load_some fs dir args files old hl, if_neg (by simp [hnew])]

/-- C3 witness: a concrete double run, and a concrete skipped write. -/
theorem sync_idempotent_witness :
    ((synchronize (synchronize none "d" ["cc", "a.c"] ["a.c"]).file "d"
        ["cc", "a.c"] ["a.c"]).file =
        (synchronize none "d" ["cc", "a.c"] ["a.c"]).file ∧
      (synchronize (synchronize none "d" ["cc", "a.c"] ["a.c"]).file "d"
        ["cc", "a.c"] ["a.c"]).wrote = false) ∧
    (synchronize none "d" ["cc", "a.c"] []).wrote = false :=
  ⟨(sync_idempotent none "d" ["cc", "a.c"] ["a.c"]).1,
    (sync_idempotent none "d" ["cc", "a.c"] []).2 [] rfl rfl⟩

/-- C5: an all-whitespace (or empty) database content loads as the empty
record set and the operation proceeds; a content that is not
whitespace-only and does not parse makes the operation fail, leaving the
file content exactly as it was. -/
theorem load_semantics :
    (∀ (s : String) (dir : String) (args files : List String),
        (∀ c ∈ s.data, rustIsWs c = true) →
        loadEntries s = some [] ∧ (synchronize (some s) dir args files).ok = true) ∧
    (∀ (s : String) (dir : String) (args files : List String),
        rustTrim s.data ≠ [] → fromStr s = none →
        (synchronize (some s) dir args files).ok = false ∧
          (synchronize (some s) dir args files).file = some s) := by
  constructor
  · intro s dir args files hws
    have hl : loadEntries s = some [] := loadEntries_all_ws s hws
    refine ⟨hl, ?_⟩
    rw [synchronize_load_some (some s) dir args files [] hl]
    split <;> rfl
  · intro s dir args files hws hp
    have hl : loadEntries s = none := by
      rw [loadEntries, if_neg hws]
      exact hp
    rw [synchronize_load_none (some s) dir args files hl]
    exact ⟨rfl, rfl⟩

/-- C5 witness: a whitespace-only content proceeds; the unparseable
content `x` fails and is left untouched. -/
theorem load_semantics_witness :
    (loadEntries " \n" = some [] ∧
      (synchronize (some " \n") "d" ["cc"] ["a.c"]).ok = true) ∧
    ((synchronize (some "x") "d" ["cc"] ["a.c"]).ok = false ∧
      (synchronize (some "x") "d" ["cc"] ["a.c"]).file = some "x") :=
  ⟨load_semantics.1 " \n" "d" ["cc"] ["a.c"] (by decide),
    load_semantics.2 "x" "d" ["cc"] ["a.c"] (by decide) (by decide)⟩

/-- C6: the create-new step swallows an `AlreadyExists` failure and
continues; every other creation failure is returned as the operation's
error; calling `synchronize` on an absent file creates it and succeeds. -/
theorem create_semantics :
    createStep CreateResult.created = Except.ok () ∧
    createStep (CreateResult.failed CreateErrorKind.alreadyExists) = Except.ok () ∧
    (∀ k : CreateErrorKind, k ≠ CreateErrorKind.alreadyExists →
        createStep (CreateResult.failed k) = Except.error k) ∧
    (∀ (dir : String) (args files : List String),
        (synchronize none dir args files).file.isSome = true ∧
        (synchronize none dir args files).ok = true) := by
  refine ⟨rfl, rfl, ?_, ?_⟩
  · intro k hk
    cases k with
    | alreadyExists => exact absurd rfl hk
    | permissionDenied => rfl
    | other => rfl
  · intro dir args files
    rw [synchronize_load_some none dir args files [] rfl]
    constructor <;> split <;> rfl

/-- C6 witness: a permission failure is surfaced; an absent file is
created. -/
theorem create_semantics_witness :
    createStep (CreateResult.failed CreateErrorKind.permissionDenied) =
      Except.error CreateErrorKind.permissionDenied ∧
    (synchronize none "d" ["cc", "a.c"] ["a.c"]).file.isSome = true :=
  ⟨create_semantics.2.2.1 CreateErrorKind.permissionDenied (by decide),
    (create_semantics.2.2.2 "d" ["cc", "a.c"] ["a.c"]).1⟩

/-- C7: serializing a valid (sorted) record set and parsing the result
gives back the same record set, losslessly in all three fields. -/
theorem serialize_parse_round_trip (S : List Entry) (h : EntrySorted S) :
    fromStr (serializePretty S) = some S :=
  fromStr_serializePretty S h

/-- C7 witness at a concrete record set. -/
theorem serialize_parse_round_trip_witness :
    fromStr (serializePretty [⟨"d", "a.c", ["cc", "-O2"]⟩]) =
      some [⟨"d", "a.c", ["cc", "-O2"]⟩] :=
  serialize_parse_round_trip [⟨"d", "a.c", ["cc", "-O2"]⟩] (by simp [EntrySorted])

/-- C8: the serialized output is a deterministic function of the loaded
set: any two sorted loaded sets with the same members produce
byte-identical serialized output, and the computed set is itself stored
in the deterministic sorted order. -/
theorem deterministic_serialization (old₁ old₂ : List Entry) (dir : String)
    (args files : List String) (h₁ : EntrySorted old₁) (h₂ : EntrySorted old₂)
    (hmem : ∀ e, e ∈ old₁ ↔ e ∈ old₂) :
    serializePretty (newEntries old₁ dir args files) =
      serializePretty (newEntries old₂ dir args files) ∧
    EntrySorted (newEntries old₁ dir args files) := by
  have heq : old₁ = old₂ := sorted_ext h₁ h₂ hmem
  subst heq
  exact ⟨rfl, sorted_newEntries dir args files h₁⟩

/-- C8 witness at concrete input. -/
theorem deterministic_serialization_witness :
    serializePretty (newEntries [] "d" ["cc"] ["a.c"]) =
      serializePretty (newEntries [] "d" ["cc"] ["a.c"]) ∧
    EntrySorted (newEntries [] "d" ["cc"] ["a.c"]) :=
  deterministic_serialization [] [] "d" ["cc"] ["a.c"] (by simp [EntrySorted])
    (by simp [EntrySorted]) (fun e => Iff.rfl)

theorem beginsWith_iff : ∀ (p cs : List Char), beginsWith p cs = true ↔ ∃ t, cs = p ++ t := by
  intro p
  induction p with
  | nil =>
    intro cs
    simp [beginsWith]
  | cons a ps ih =>
    intro cs
    cases cs with
    | nil => simp [beginsWith]
    | cons c cs₂ =>
      rw [beginsWith]
      simp only [Bool.and_eq_true, decide_eq_true_eq, ih, List.cons_append,
        List.cons.injEq]
      constructor
      · rintro ⟨rfl, t, rfl⟩
        exact ⟨t, rfl, rfl⟩
      · rintro ⟨t, h1, h2⟩
        exact ⟨h1.symm, t, h2⟩

theorem endsWithB_iff (s suf : String) :
    endsWithB s suf = true ↔ ∃ p, s.data = p ++ suf.data := by
  rw [endsWithB, beginsWith_iff]
  constructor
  · rintro ⟨t, ht⟩
    refine ⟨t.reverse, ?_⟩
    have := congrArg List.reverse ht
    simpa using this
  · rintro ⟨p, hp⟩
    exact ⟨p.reverse, by rw [hp]; simp⟩

/-- C10: an argument is classified as a source file exactly when it ends
in `.c`, `.cc` or `.cpp` — compared case-sensitively on non-Windows and
after lowercasing on Windows — so `.h`, `.cxx` and (on Unix) `.C` are
never recorded, and when no argument matches the database is neither
created nor touched. -/
theorem source_file_classification :
    (∀ arg : String, isSourceFileUnix arg = true ↔
        (∃ p, arg.data = p ++ ".c".data) ∨ (∃ p, arg.data = p ++ ".cc".data) ∨
          (∃ p, arg.data = p ++ ".cpp".data)) ∧
    (∀ arg : String, isSourceFileWindows arg = true ↔
        (∃ p, (toLowerStr arg).data = p ++ ".c".data) ∨
          (∃ p, (toLowerStr arg).data = p ++ ".cc".data) ∨
          (∃ p, (toLowerStr arg).data = p ++ ".cpp".data)) ∧
    isSourceFileUnix "x.h" = false ∧ isSourceFileUnix "x.cxx" = false ∧
    isSourceFileUnix "x.C" = false ∧ isSourceFileWindows "x.C" = true ∧
    (∀ (argv : List String) (fs : Option String) (dir compiler : String),
        (∀ a ∈ argv.drop 1, isSourceFileUnix a = false) →
        runMain argv fs dir compiler = ⟨fs, true, false⟩) := by
  refine ⟨?_, ?_, by decide, by decide, by decide, by decide, ?_⟩
  · intro arg
    rw [isSourceFileUnix]
    simp only [Bool.or_eq_true, endsWithB_iff]
    tauto
  · intro arg
    rw [isSourceFileWindows]
    simp only [Bool.or_eq_true, endsWithB_iff]
    tauto
  · intro argv fs dir compiler hnone
    rw [runMain]
    rw [show (argv.drop 1).filter isSourceFileUnix = [] from by
      rw [List.filter_eq_nil]
      intro a ha
      simp [hnone a ha]]
    rfl

/-- C10 witness: a `.cpp` argument is classified, and a run whose only
candidate ends in `.h` leaves the absent database untouched. -/
theorem source_file_classification_witness :
    isSourceFileUnix "foo.cpp" = true ∧
    runMain ["cdbgen-cc", "-O2", "x.h"] none "d" "/bin/cc" = ⟨none, true, false⟩ :=
  ⟨(source_file_classification.1 "foo.cpp").mpr
      (Or.inr (Or.inr ⟨"foo".data, rfl⟩)),
    source_file_classification.2.2.2.2.2.2 ["cdbgen-cc", "-O2", "x.h"] none "d"
      "/bin/cc" (by decide)⟩
